import Mathlib

/-!
Shallow embedding of `src/storage.rs` (shrev-rs): a fixed-capacity ring
buffer with per-reader cursors.

Modelling conventions:
* Rust `usize` values are modelled as `Nat`.  The only `usize` values in
  this code that can shrink are cursors reset to `0`, so no machine
  overflow arithmetic is observable in the supported range; `u32`
  (`next_reader_id`) is incremented modulo `2 ^ 32`.
* `TypeId::of::<T>()` is modelled as a `Nat` parameter `tid` passed to the
  operations that mention it (`new_reader_id`, `read`); two distinct Rust
  element types have distinct `TypeId`s, hence distinct `tid`s.
* `Vec<T>` is `List T`; `self.data[i] = v` (which panics out of bounds) is
  `List.set`, and indexing in the iterator is `List.getElem?` (out of
  bounds, where Rust would panic, yields `none`, which ends the modelled
  iteration; reachable states never hit this case).
* `read` takes `&self` in Rust and never mutates the storage, so the
  embedding returns no storage component from `read`; it returns the
  result together with the updated `ReaderId` (Rust mutates it through
  `&mut`).
* The lazy `StorageIterator` is embedded with the borrowed storage
  replaced by the only storage fields it reads (`data`); `collect` drives
  `next` with explicit fuel, and `toList` supplies fuel `data.length + 1`,
  enough for every reachable iterator.
-/

namespace Shrev

/-- Reader handle, from `struct ReaderId` (fields `t`, `id`, `read_index`,
`written`). -/
structure ReaderId where
  t : Nat
  id : Nat
  read_index : Nat
  written : Nat
deriving DecidableEq

/-- `ReaderId::new`. -/
def ReaderId.new (t id reader_index written : Nat) : ReaderId :=
  ⟨t, id, reader_index, written⟩

/-- The ring buffer, from `struct RingBufferStorage<T>`. -/
structure RingBufferStorage (T : Type) where
  data : List T
  write_index : Nat
  max_size : Nat
  written : Nat
  next_reader_id : Nat
  reset_written : Nat
deriving DecidableEq

/-- `RingBufferStorage::new(size)`. -/
def RingBufferStorage.new (T : Type) (size : Nat) : RingBufferStorage T :=
  { data := []
    write_index := 0
    max_size := size
    written := 0
    next_reader_id := 1
    reset_written := size * 1000 }

/-- Iterator over a slice of data, from `struct StorageIterator<'a, T>`;
the borrowed `storage: &'a RingBufferStorage<T>` is replaced by the one
storage field the iterator reads, its `data` vector.  `iterEnd` is the
source's `end` field. -/
structure StorageIterator (T : Type) where
  data : List T
  current : Nat
  iterEnd : Nat
  started : Bool
deriving DecidableEq

/-- `enum RBError<'a, T>`. -/
inductive RBError (T : Type) where
  | tooLargeWrite
  | lostData (it : StorageIterator T) (count : Nat)
  | invalidReader
deriving DecidableEq

/-- `RingBufferStorage::write_single`. -/
def write_single {T : Type} (s : RingBufferStorage T) (d : T) :
    RingBufferStorage T :=
  let wi := s.write_index
  let data' := if wi = s.data.length then s.data ++ [d] else s.data.set wi d
  let wi1 := wi + 1
  let wi2 := if s.max_size ≤ wi1 then 0 else wi1
  let w1 := s.written + 1
  let w2 := if s.reset_written < w1 then 0 else w1
  { s with data := data', write_index := wi2, written := w2 }

/-- `RingBufferStorage::write`.  Rust signature:
`fn write(&mut self, data: &mut Vec<T>) -> Result<(), RBError<T>>`;
the embedding returns the result, the new storage, and what remains in
the caller's vector (`drain(0..)` empties it on the write path). -/
def write {T : Type} (s : RingBufferStorage T) (data : List T) :
    Except (RBError T) Unit × RingBufferStorage T × List T :=
  if data.length = 0 then (.ok (), s, data)
  else if s.max_size < data.length then (.error .tooLargeWrite, s, data)
  else (.ok (), data.foldl write_single s, [])

/-- `RingBufferStorage::new_reader_id`; `tid` stands for
`TypeId::of::<T>()`.  Returns the minted handle and the storage with its
`next_reader_id` bumped. -/
def new_reader_id {T : Type} (tid : Nat) (s : RingBufferStorage T) :
    ReaderId × RingBufferStorage T :=
  (ReaderId.new tid s.next_reader_id s.write_index s.written,
   { s with next_reader_id := (s.next_reader_id + 1) % 2 ^ 32 })

/-- The `num_written` computation of `RingBufferStorage::read`
(storage.rs lines 134-138): wraparound-aware difference of the `written`
counters. -/
def numWritten {T : Type} (s : RingBufferStorage T) (r : ReaderId) : Nat :=
  if s.written < r.written then s.written + (s.reset_written - r.written)
  else s.written - r.written

/-- `RingBufferStorage::read`; `tid` stands for `TypeId::of::<T>()`.
Takes `&self`, so the storage is unchanged; the updated reader handle is
returned alongside the result. -/
def read {T : Type} (tid : Nat) (s : RingBufferStorage T) (r : ReaderId) :
    Except (RBError T) (StorageIterator T) × ReaderId :=
  if r.t ≠ tid then (.error .invalidReader, r)
  else
    let nw := numWritten s r
    let read_index := r.read_index
    let r' : ReaderId := { r with read_index := s.write_index, written := s.written }
    if s.max_size < nw then
      (.error (.lostData ⟨s.data, s.write_index, s.write_index, false⟩
        (nw - s.max_size)), r')
    else
      (.ok ⟨s.data, read_index, s.write_index, nw == 0⟩, r')

/-- `StorageIterator::next` (`impl Iterator`); returns the yielded
element (`none` both when iteration is over and where Rust would panic on
an out-of-range index, which no reachable iterator does) together with
the advanced iterator. -/
def StorageIterator.next {T : Type} (it : StorageIterator T) :
    Option T × StorageIterator T :=
  if it.started ∧ it.current = it.iterEnd then (none, it)
  else
    let t := it.data[it.current]?
    let c1 := it.current + 1
    let c2 := if c1 = it.data.length ∧ it.iterEnd ≠ it.data.length then 0 else c1
    (t, { it with started := true, current := c2 })

/-- Drive `StorageIterator.next` until it yields `none`, with fuel. -/
def StorageIterator.collect {T : Type} (it : StorageIterator T) :
    Nat → List T
  | 0 => []
  | fuel + 1 =>
    (it.next.1).elim [] fun t => t :: (it.next.2).collect fuel

/-- The list of elements the iterator yields (Rust's
`iterator.cloned().collect::<Vec<_>>()`); fuel `data.length + 1` is
enough for every iterator `read` builds. -/
def StorageIterator.toList {T : Type} (it : StorageIterator T) : List T :=
  it.collect (it.data.length + 1)

/-- Observable result of a read: `some` of the yielded list on the `Ok`
path, `none` on the error paths. -/
def okValues {T : Type} : Except (RBError T) (StorageIterator T) → Option (List T)
  | .ok it => some it.toList
  | .error _ => none

/-- Observable content of a `LostData` failure: the salvaged list and the
lost count. -/
def lostSalvage {T : Type} :
    Except (RBError T) (StorageIterator T) → Option (List T × Nat)
  | .error (.lostData it n) => some (it.toList, n)
  | _ => none

/-- Fold a list of values through `write_single` (the state evolution of
a successful `write` call, and of any sequence of single writes). -/
def writeList {T : Type} (s : RingBufferStorage T) (ws : List T) :
    RingBufferStorage T :=
  ws.foldl write_single s

/-- One storage-mutating API step: a single write, or minting a reader
(`read` takes `&self` and never changes the storage, so it contributes no
step; a successful `write` batch is the sequence of its single writes and
a failed or empty one is a no-op on the storage). -/
inductive Step (T : Type) where
  | write (d : T)
  | newReader

/-- Apply one step to the storage (the handle minted by `newReader` is
discarded here; its state effect does not depend on `tid`). -/
def applyStep {T : Type} (s : RingBufferStorage T) : Step T → RingBufferStorage T
  | .write d => write_single s d
  | .newReader => (new_reader_id 0 s).2

/-- Run a sequence of steps. -/
def run {T : Type} (s : RingBufferStorage T) (ops : List (Step T)) :
    RingBufferStorage T :=
  ops.foldl applyStep s

/-- The values written by a sequence of steps, in order. -/
def writesOf {T : Type} : List (Step T) → List T
  | [] => []
  | .write d :: ops => d :: writesOf ops
  | .newReader :: ops => writesOf ops

/-- States reachable through the public API from `new` with positive
capacity (`read` takes `&self` and leaves the storage unchanged, so it
needs no constructor). -/
inductive Reachable {T : Type} : RingBufferStorage T → Prop where
  | new_ (size : Nat) (h : 0 < size) : Reachable (RingBufferStorage.new T size)
  | wsingle {s : RingBufferStorage T} {d : T} :
      Reachable s → Reachable (write_single s d)
  | wbatch {s : RingBufferStorage T} {ds : List T} :
      Reachable s → Reachable ((write s ds).2.1)
  | mkReader {s : RingBufferStorage T} {tid : Nat} :
      Reachable s → Reachable ((new_reader_id tid s).2)

/-- The structural invariant of a reachable storage. -/
structure Inv {T : Type} (s : RingBufferStorage T) : Prop where
  size_pos : 0 < s.max_size
  len_le : s.data.length ≤ s.max_size
  wi_lt : s.write_index < s.max_size
  wi_le_len : s.write_index ≤ s.data.length
  fill : s.data.length < s.max_size → s.write_index = s.data.length
  written_le : s.written ≤ s.reset_written
  reset_eq : s.reset_written = s.max_size * 1000

variable {T : Type}

theorem writeList_nil (s : RingBufferStorage T) : writeList s [] = s := rfl

theorem writeList_cons (s : RingBufferStorage T) (d : T) (ws : List T) :
    writeList s (d :: ws) = writeList (write_single s d) ws := rfl

@[simp] theorem write_single_max (s : RingBufferStorage T) (d : T) :
    (write_single s d).max_size = s.max_size := rfl

@[simp] theorem write_single_reset (s : RingBufferStorage T) (d : T) :
    (write_single s d).reset_written = s.reset_written := rfl

@[simp] theorem writeList_max (s : RingBufferStorage T) (ws : List T) :
    (writeList s ws).max_size = s.max_size := by
  induction ws generalizing s with
  | nil => rfl
  | cons d ws ih => rw [writeList_cons, ih, write_single_max]

@[simp] theorem writeList_reset (s : RingBufferStorage T) (ws : List T) :
    (writeList s ws).reset_written = s.reset_written := by
  induction ws generalizing s with
  | nil => rfl
  | cons d ws ih => rw [writeList_cons, ih, write_single_reset]

theorem write_single_write_index {s : RingBufferStorage T}
    (h : s.write_index < s.max_size) (d : T) :
    (write_single s d).write_index = (s.write_index + 1) % s.max_size := by
  show (if s.max_size ≤ s.write_index + 1 then 0 else s.write_index + 1)
      = (s.write_index + 1) % s.max_size
  by_cases hc : s.max_size ≤ s.write_index + 1
  · have he : s.write_index + 1 = s.max_size := by omega
    simp [hc, he]
  · have hlt : s.write_index + 1 < s.max_size := by omega
    simp [hc, Nat.mod_eq_of_lt hlt]

theorem write_single_written {s : RingBufferStorage T}
    (h : s.written ≤ s.reset_written) (d : T) :
    (write_single s d).written = (s.written + 1) % (s.reset_written + 1) := by
  show (if s.reset_written < s.written + 1 then 0 else s.written + 1)
      = (s.written + 1) % (s.reset_written + 1)
  by_cases hc : s.reset_written < s.written + 1
  · have he : s.written + 1 = s.reset_written + 1 := by omega
    simp [hc, he]
  · have hlt : s.written + 1 < s.reset_written + 1 := by omega
    simp [hc, Nat.mod_eq_of_lt hlt]

theorem write_single_length {s : RingBufferStorage T} (hInv : Inv s) (d : T) :
    (write_single s d).data.length = min (s.data.length + 1) s.max_size := by
  show (if s.write_index = s.data.length then s.data ++ [d]
      else s.data.set s.write_index d).length = _
  by_cases hc : s.write_index = s.data.length
  · have hlt := hInv.wi_lt
    rw [if_pos hc, List.length_append]
    simp only [List.length_cons, List.length_nil]
    omega
  · have hle := hInv.len_le
    have hfill := hInv.fill
    have heq : s.data.length = s.max_size := by
      rcases Nat.lt_or_ge s.data.length s.max_size with h | h
      · exact absurd (hfill h) hc
      · omega
    rw [if_neg hc, List.length_set]
    omega

theorem Inv.write_single_pres {s : RingBufferStorage T} (hInv : Inv s) (d : T) :
    Inv (write_single s d) := by
  have hwi := write_single_write_index hInv.wi_lt d
  have hwr := write_single_written hInv.written_le d
  have hlen := write_single_length hInv d
  have h1 := hInv.wi_le_len
  have h2 := hInv.wi_lt
  have h3 := hInv.len_le
  have h4 := hInv.written_le
  constructor
  · simpa using hInv.size_pos
  · rw [hlen, write_single_max]; omega
  · rw [hwi, write_single_max]; exact Nat.mod_lt _ hInv.size_pos
  · rw [hwi, hlen]
    by_cases hc : s.write_index + 1 < s.max_size
    · rw [Nat.mod_eq_of_lt hc]; omega
    · have he : s.write_index + 1 = s.max_size := by omega
      rw [he, Nat.mod_self]; omega
  · rw [hlen, hwi, write_single_max]
    intro hlt
    have hwieq : s.write_index = s.data.length := hInv.fill (by omega)
    have hlt2 : s.write_index + 1 < s.max_size := by omega
    rw [Nat.mod_eq_of_lt hlt2]
    omega
  · rw [hwr, write_single_reset]
    have h5 : (s.written + 1) % (s.reset_written + 1) < s.reset_written + 1 :=
      Nat.mod_lt _ (by omega)
    omega
  · rw [write_single_reset, write_single_max]; exact hInv.reset_eq

theorem Inv.writeList_pres {s : RingBufferStorage T} (hInv : Inv s) (ws : List T) :
    Inv (writeList s ws) := by
  induction ws generalizing s with
  | nil => exact hInv
  | cons d ws ih => rw [writeList_cons]; exact ih (hInv.write_single_pres d)

theorem writeList_write_index {s : RingBufferStorage T} (hInv : Inv s) (ws : List T) :
    (writeList s ws).write_index = (s.write_index + ws.length) % s.max_size := by
  induction ws generalizing s with
  | nil =>
    have h := hInv.wi_lt
    simp [writeList_nil, Nat.mod_eq_of_lt h]
  | cons d ws ih =>
    rw [writeList_cons, ih (hInv.write_single_pres d),
      write_single_write_index hInv.wi_lt, write_single_max, Nat.mod_add_mod]
    congr 1
    simp only [List.length_cons]
    omega

theorem writeList_written {s : RingBufferStorage T} (hInv : Inv s) (ws : List T) :
    (writeList s ws).written = (s.written + ws.length) % (s.reset_written + 1) := by
  induction ws generalizing s with
  | nil =>
    have h : s.written < s.reset_written + 1 := by have := hInv.written_le; omega
    simp [writeList_nil, Nat.mod_eq_of_lt h]
  | cons d ws ih =>
    rw [writeList_cons, ih (hInv.write_single_pres d),
      write_single_written hInv.written_le, write_single_reset, Nat.mod_add_mod]
    congr 1
    simp only [List.length_cons]
    omega

theorem writeList_length {s : RingBufferStorage T} (hInv : Inv s) (ws : List T) :
    (writeList s ws).data.length = min (s.data.length + ws.length) s.max_size := by
  induction ws generalizing s with
  | nil => have := hInv.len_le; simp [writeList_nil]; omega
  | cons d ws ih =>
    rw [writeList_cons, ih (hInv.write_single_pres d), write_single_length hInv,
      write_single_max]
    have := hInv.len_le
    simp only [List.length_cons]
    omega


theorem Inv.new_pos {T : Type} (size : Nat) (h : 0 < size) :
    Inv (RingBufferStorage.new T size) := by
  constructor <;> simp [RingBufferStorage.new] <;> omega

theorem Inv.write_pres {T : Type} {s : RingBufferStorage T} (hInv : Inv s)
    (ds : List T) : Inv ((write s ds).2.1) := by
  unfold write
  by_cases h0 : ds.length = 0
  · simpa [h0] using hInv
  · by_cases h1 : s.max_size < ds.length
    · simpa [h0, h1] using hInv
    · simpa [h0, h1] using hInv.writeList_pres ds

theorem Inv.new_reader_pres {T : Type} {s : RingBufferStorage T} (hInv : Inv s)
    (tid : Nat) : Inv ((new_reader_id tid s).2) := by
  obtain ⟨a, b, c, d, e, f, g⟩ := hInv
  exact ⟨a, b, c, d, e, f, g⟩

theorem Reachable.inv {T : Type} {s : RingBufferStorage T}
    (h : Reachable s) : Inv s := by
  induction h with
  | new_ size hpos => exact Inv.new_pos size hpos
  | wsingle _ ih => exact ih.write_single_pres _
  | wbatch _ ih => exact ih.write_pres _
  | mkReader _ ih => exact ih.new_reader_pres _

/-- What `num_written` (read step 2) computes after `ws.length ≤ capacity`
single writes on top of a handle synchronized with `s`: the true count
when the `written` counter did not wrap in between, and one less when it
did. -/
theorem numWritten_writeList {T : Type} {s : RingBufferStorage T} (hInv : Inv s)
    {r : ReaderId} (hrw : r.written = s.written) (ws : List T)
    (hn : ws.length ≤ s.max_size) :
    numWritten (writeList s ws) r =
      if s.written + ws.length ≤ s.reset_written then ws.length
      else ws.length - 1 := by
  have hR : s.max_size ≤ s.reset_written := by
    rw [hInv.reset_eq]; nlinarith [hInv.size_pos]
  have hw0 := hInv.written_le
  have hwr := writeList_written hInv ws
  rw [numWritten, writeList_reset, hwr, hrw]
  by_cases hc : s.written + ws.length ≤ s.reset_written
  · rw [Nat.mod_eq_of_lt (by omega), if_pos hc, if_neg (by omega)]
    omega
  · have h2 : s.written + ws.length < 2 * (s.reset_written + 1) := by omega
    have hmod : (s.written + ws.length) % (s.reset_written + 1)
        = s.written + ws.length - (s.reset_written + 1) := by
      rw [Nat.mod_eq_sub_mod (by omega), Nat.mod_eq_of_lt (by omega)]
    rw [hmod, if_neg hc, if_pos (by omega)]
    omega

/-- Advancing by `m` slots, `0 < m < c`, never returns to the same slot. -/
theorem mod_shift_ne {c wi m : Nat} (hwi : wi < c) (hm0 : 0 < m) (hmc : m < c) :
    (wi + m) % c ≠ wi := by
  intro h
  have h1 : wi % c = (wi + m) % c := by rw [Nat.mod_eq_of_lt hwi, h]
  have h2 : c ∣ m := by
    simpa using (Nat.modEq_iff_dvd' (Nat.le_add_right wi m)).mp h1
  have := Nat.le_of_dvd hm0 h2
  omega

/-- `write_single` stores its argument at the slot `write_index`. -/
theorem write_single_get_wi {T : Type} {s : RingBufferStorage T} (hInv : Inv s)
    (d : T) : (write_single s d).data[s.write_index]? = some d := by
  show (if s.write_index = s.data.length then s.data ++ [d]
      else s.data.set s.write_index d)[s.write_index]? = some d
  by_cases hc : s.write_index = s.data.length
  · rw [if_pos hc, hc, List.getElem?_concat_length]
  · have hlt : s.write_index < s.data.length :=
      Nat.lt_of_le_of_ne hInv.wi_le_len hc
    rw [if_neg hc, List.getElem?_set_self hlt]

/-- `write_single` leaves every other slot unchanged. -/
theorem write_single_get_other {T : Type} {s : RingBufferStorage T} (d : T)
    {p : Nat} (hp : p ≠ s.write_index) :
    (write_single s d).data[p]? = s.data[p]? := by
  show (if s.write_index = s.data.length then s.data ++ [d]
      else s.data.set s.write_index d)[p]? = s.data[p]?
  by_cases hc : s.write_index = s.data.length
  · rw [if_pos hc, List.getElem?_append]
    by_cases h2 : p < s.data.length
    · rw [if_pos h2]
    · rw [if_neg h2, List.getElem?_eq_none (by simp; omega),
        List.getElem?_eq_none (by omega)]
  · rw [if_neg hc, List.getElem?_set_ne (Ne.symm hp)]

/-- A sequence of writes leaves every slot it does not touch unchanged. -/
theorem writeList_get_untouched {T : Type} {s : RingBufferStorage T}
    (hInv : Inv s) {p : Nat} (ws : List T)
    (hp : ∀ j < ws.length, p ≠ (s.write_index + j) % s.max_size) :
    (writeList s ws).data[p]? = s.data[p]? := by
  induction ws generalizing s with
  | nil => rfl
  | cons d t ih =>
    rw [writeList_cons]
    have hp0 : p ≠ s.write_index := by
      have h0 := hp 0 (by simp)
      rwa [Nat.add_zero, Nat.mod_eq_of_lt hInv.wi_lt] at h0
    have hp' : ∀ j < t.length,
        p ≠ ((write_single s d).write_index + j) % (write_single s d).max_size := by
      intro j hj
      rw [write_single_write_index hInv.wi_lt, write_single_max, Nat.mod_add_mod]
      have h2 := hp (j + 1) (by simp only [List.length_cons]; omega)
      have he : s.write_index + 1 + j = s.write_index + (j + 1) := by omega
      rw [he]
      exact h2
    rw [ih (hInv.write_single_pres d) hp', write_single_get_other d hp0]

/-- After writing `ws` (at most `capacity` values), the slot reached by
advancing `j` positions from the starting write cursor holds `ws[j]`. -/
theorem writeList_get_content {T : Type} {s : RingBufferStorage T}
    (hInv : Inv s) (ws : List T) (hn : ws.length ≤ s.max_size) :
    ∀ j, j < ws.length →
      (writeList s ws).data[(s.write_index + j) % s.max_size]? = ws[j]? := by
  induction ws generalizing s with
  | nil => intro j hj; simp at hj
  | cons d t ih =>
    intro j hj
    rw [writeList_cons]
    cases j with
    | zero =>
      rw [Nat.add_zero, Nat.mod_eq_of_lt hInv.wi_lt]
      have huntouched : (writeList (write_single s d) t).data[s.write_index]?
          = (write_single s d).data[s.write_index]? := by
        apply writeList_get_untouched (hInv.write_single_pres d)
        intro k hk
        rw [write_single_write_index hInv.wi_lt, write_single_max, Nat.mod_add_mod]
        have he : s.write_index + 1 + k = s.write_index + (k + 1) := by omega
        rw [he]
        have hlen : t.length + 1 ≤ s.max_size := by
          simpa [List.length_cons] using hn
        exact (mod_shift_ne hInv.wi_lt (by omega) (by omega)).symm
      rw [huntouched, write_single_get_wi hInv]
      simp
    | succ j' =>
      have hlen : t.length ≤ (write_single s d).max_size := by
        rw [write_single_max]
        simp only [List.length_cons] at hn
        omega
      have hj' : j' < t.length := by
        simp only [List.length_cons] at hj
        omega
      have ih2 := ih (hInv.write_single_pres d) hlen j' hj'
      rw [write_single_write_index hInv.wi_lt, write_single_max,
        Nat.mod_add_mod] at ih2
      have he : s.write_index + 1 + j' = s.write_index + (j' + 1) := by omega
      rw [he] at ih2
      rw [ih2]
      simp

/-- A started iterator standing at its end yields nothing. -/
theorem collect_stop {T : Type} (d : List T) (x : Nat) (fuel : Nat) :
    StorageIterator.collect ⟨d, x, x, true⟩ fuel = [] := by
  cases fuel with
  | zero => rfl
  | succ fuel => simp [StorageIterator.collect, StorageIterator.next]

/-- A started iterator below its end yields the slice up to the end. -/
theorem collect_forward {T : Type} (d : List T) (e : Nat) (he : e ≤ d.length) :
    ∀ fuel cur, cur ≤ e → e - cur < fuel →
      StorageIterator.collect ⟨d, cur, e, true⟩ fuel = (d.drop cur).take (e - cur) := by
  intro fuel
  induction fuel with
  | zero => intro cur h1 h2; omega
  | succ fuel ih =>
    intro cur h1 h2
    by_cases hc : cur = e
    · subst hc
      simp [collect_stop]
    · have hlt : cur < e := by omega
      have hcurlen : cur < d.length := by omega
      have hnext : (StorageIterator.mk d cur e true).next
          = (some d[cur], ⟨d, cur + 1, e, true⟩) := by
        have hcond : ¬(cur + 1 = d.length ∧ e ≠ d.length) := by
          rintro ⟨ha, hb⟩; omega
        simp [StorageIterator.next, hc, hcond, List.getElem?_eq_getElem hcurlen]
      simp only [StorageIterator.collect]
      rw [hnext]
      simp only [Option.elim]
      rw [ih (cur + 1) (by omega) (by omega)]
      rw [List.drop_eq_getElem_cons hcurlen]
      have he2 : e - cur = (e - (cur + 1)) + 1 := by omega
      rw [he2, List.take_succ_cons]

/-- An iterator past its end wraps at the vector's end and yields the
tail of the vector followed by its first `e` elements. -/
theorem collect_wrap {T : Type} (d : List T) (e : Nat) :
    ∀ fuel cur st, e < cur → cur < d.length → d.length - cur + e < fuel →
      StorageIterator.collect ⟨d, cur, e, st⟩ fuel = d.drop cur ++ d.take e := by
  intro fuel
  induction fuel with
  | zero => intro cur st h1 h2 h3; omega
  | succ fuel ih =>
    intro cur st h1 h2 h3
    by_cases hwrapc : cur + 1 = d.length
    · have hnext : (StorageIterator.mk d cur e st).next
          = (some d[cur], ⟨d, 0, e, true⟩) := by
        have hcond : cur + 1 = d.length ∧ e ≠ d.length := ⟨hwrapc, by omega⟩
        simp [StorageIterator.next, (show ¬cur = e by omega), hcond,
          List.getElem?_eq_getElem h2]
      simp only [StorageIterator.collect]
      rw [hnext]
      simp only [Option.elim]
      rw [collect_forward d e (by omega) fuel 0 (by omega) (by omega)]
      rw [List.drop_eq_getElem_cons h2, hwrapc, List.drop_length]
      simp
    · have hnext : (StorageIterator.mk d cur e st).next
          = (some d[cur], ⟨d, cur + 1, e, true⟩) := by
        have hcond : ¬(cur + 1 = d.length ∧ e ≠ d.length) := by
          rintro ⟨ha, _⟩; omega
        simp [StorageIterator.next, (show ¬cur = e by omega), hcond,
          List.getElem?_eq_getElem h2]
      simp only [StorageIterator.collect]
      rw [hnext]
      simp only [Option.elim]
      rw [ih (cur + 1) true (by omega) (by omega) (by omega)]
      rw [List.drop_eq_getElem_cons h2, List.cons_append]

/-- A not-yet-started iterator whose cursor already equals its end walks
the whole vector once: the tail from the cursor, then the head up to it. -/
theorem collect_full {T : Type} (d : List T) (cur : Nat) (h2 : cur < d.length) :
    ∀ fuel, d.length < fuel →
      StorageIterator.collect ⟨d, cur, cur, false⟩ fuel = d.drop cur ++ d.take cur := by
  intro fuel hf
  cases fuel with
  | zero => omega
  | succ fuel =>
    by_cases hwrapc : cur + 1 = d.length
    · have hnext : (StorageIterator.mk d cur cur false).next
          = (some d[cur], ⟨d, 0, cur, true⟩) := by
        have hcond : cur + 1 = d.length ∧ cur ≠ d.length := ⟨hwrapc, by omega⟩
        simp [StorageIterator.next, hcond, List.getElem?_eq_getElem h2]
      simp only [StorageIterator.collect]
      rw [hnext]
      simp only [Option.elim]
      rw [collect_forward d cur (by omega) fuel 0 (by omega) (by omega)]
      rw [List.drop_eq_getElem_cons h2, hwrapc, List.drop_length]
      simp
    · have hnext : (StorageIterator.mk d cur cur false).next
          = (some d[cur], ⟨d, cur + 1, cur, true⟩) := by
        have hcond : ¬(cur + 1 = d.length ∧ cur ≠ d.length) := by
          rintro ⟨ha, _⟩; omega
        simp [StorageIterator.next, hcond, List.getElem?_eq_getElem h2]
      simp only [StorageIterator.collect]
      rw [hnext]
      simp only [Option.elim]
      rw [collect_wrap d cur fuel (cur + 1) true (by omega) (by omega) (by omega)]
      rw [List.drop_eq_getElem_cons h2, List.cons_append]

/-- `toList` of a started iterator at its end is empty. -/
theorem toList_stop {T : Type} (d : List T) (x : Nat) :
    (StorageIterator.mk d x x true).toList = [] := by
  rw [StorageIterator.toList]
  exact collect_stop d x _

/-- `toList` of a fresh full-cycle iterator is the whole vector in
chronological order starting at the cursor. -/
theorem toList_full {T : Type} (d : List T) (cur : Nat) (h : cur < d.length) :
    (StorageIterator.mk d cur cur false).toList = d.drop cur ++ d.take cur := by
  rw [StorageIterator.toList]
  exact collect_full d cur h (d.length + 1) (by omega)

/-- Two storages that agree on every field `write_single` and `read`
consult (all but the reader-minting counter `next_reader_id`). -/
def obsEq {T : Type} (s s' : RingBufferStorage T) : Prop :=
  s.data = s'.data ∧ s.write_index = s'.write_index ∧ s.max_size = s'.max_size ∧
  s.written = s'.written ∧ s.reset_written = s'.reset_written

theorem obsEq_refl {T : Type} (s : RingBufferStorage T) : obsEq s s :=
  ⟨rfl, rfl, rfl, rfl, rfl⟩

theorem obsEq_trans {T : Type} {s1 s2 s3 : RingBufferStorage T}
    (h : obsEq s1 s2) (h' : obsEq s2 s3) : obsEq s1 s3 := by
  obtain ⟨a, b, c, d, e⟩ := h
  obtain ⟨a', b', c', d', e'⟩ := h'
  exact ⟨a.trans a', b.trans b', c.trans c', d.trans d', e.trans e'⟩

theorem write_single_obsEq {T : Type} {s s' : RingBufferStorage T}
    (h : obsEq s s') (d : T) : obsEq (write_single s d) (write_single s' d) := by
  obtain ⟨h1, h2, h3, h4, h5⟩ := h
  refine ⟨?_, ?_, ?_, ?_, ?_⟩ <;> simp [write_single, h1, h2, h3, h4, h5]

theorem writeList_obsEq {T : Type} {s s' : RingBufferStorage T}
    (h : obsEq s s') (ws : List T) : obsEq (writeList s ws) (writeList s' ws) := by
  induction ws generalizing s s' with
  | nil => exact h
  | cons d t ih => exact ih (write_single_obsEq h d)

theorem new_reader_state_obsEq {T : Type} (tid : Nat) (s : RingBufferStorage T) :
    obsEq ((new_reader_id tid s).2) s :=
  ⟨rfl, rfl, rfl, rfl, rfl⟩

/-- Running any interleaving of writes and reader creations affects the
observable storage exactly as the write sequence alone. -/
theorem run_obsEq {T : Type} (s : RingBufferStorage T) (ops : List (Step T)) :
    obsEq (run s ops) (writeList s (writesOf ops)) := by
  induction ops generalizing s with
  | nil => exact obsEq_refl s
  | cons op t ih =>
    cases op with
    | write d => exact ih (write_single s d)
    | newReader =>
      exact obsEq_trans (ih ((new_reader_id 0 s).2))
        (writeList_obsEq (new_reader_state_obsEq 0 s) (writesOf t))

theorem numWritten_obsEq {T : Type} {s s' : RingBufferStorage T}
    (h : obsEq s s') (r : ReaderId) : numWritten s r = numWritten s' r := by
  obtain ⟨h1, h2, h3, h4, h5⟩ := h
  simp [numWritten, h4, h5]

theorem read_obsEq {T : Type} {s s' : RingBufferStorage T} (h : obsEq s s')
    (tid : Nat) (r : ReaderId) : read tid s r = read tid s' r := by
  obtain ⟨h1, h2, h3, h4, h5⟩ := h
  simp only [read, numWritten, h1, h2, h3, h4, h5]

theorem Reachable.run_pres {T : Type} {s : RingBufferStorage T}
    (h : Reachable s) (ops : List (Step T)) : Reachable (run s ops) := by
  induction ops generalizing s with
  | nil => exact h
  | cons op t ih =>
    cases op with
    | write d => exact ih h.wsingle
    | newReader => exact ih h.mkReader

/-- When the type tags match, `read` computes the lost-data test on
`num_written` and resynchronizes the handle unconditionally. -/
theorem read_eq_of_tag {T : Type} {tid : Nat} {s : RingBufferStorage T}
    {r : ReaderId} (h : r.t = tid) :
    read tid s r =
      (if s.max_size < numWritten s r then
        .error (.lostData ⟨s.data, s.write_index, s.write_index, false⟩
          (numWritten s r - s.max_size))
      else .ok ⟨s.data, r.read_index, s.write_index, numWritten s r == 0⟩,
      { r with read_index := s.write_index, written := s.written }) := by
  rw [read, if_neg (by simp [h])]
  by_cases hc : s.max_size < numWritten s r <;> simp [hc]

/-- Claim C5: `read` fails with `InvalidReader` exactly when the handle's
type tag differs from the buffer's element type tag, and on that failure
the handle is returned unmodified (the storage is never modified by
`read`, which takes `&self`); in particular a handle minted for element
type `A` used against a buffer of element type `B` (distinct tags) always
fails this way, regardless of buffer contents. -/
theorem C5_invalid_reader {T : Type} (tid : Nat) (s : RingBufferStorage T)
    (r : ReaderId) :
    ((read tid s r).1 = .error .invalidReader ↔ r.t ≠ tid) ∧
    (r.t ≠ tid → (read tid s r).2 = r) := by
  constructor
  · constructor
    · intro h
      by_contra hne
      rw [read_eq_of_tag hne] at h
      split at h <;> simp_all
    · intro h
      simp [read, h]
  · intro h
    simp [read, h]

/-- Claim C6: for any buffer and any handle with a matching type tag,
after any `read` call — whether it succeeds or fails with `LostData` —
the handle's `read_index` equals the buffer's `write_index` and its
`written` equals the buffer's `written`, so an immediately repeated read
with no intervening write succeeds with the empty sequence. -/
theorem C6_resync {T : Type} (tid : Nat) (s : RingBufferStorage T)
    (r : ReaderId) (h : r.t = tid) :
    ((read tid s r).2.read_index = s.write_index ∧
     (read tid s r).2.written = s.written) ∧
    okValues ((read tid s (read tid s r).2).1) = some [] := by
  rw [read_eq_of_tag h]
  refine ⟨⟨rfl, rfl⟩, ?_⟩
  have h2 : ({ r with read_index := s.write_index, written := s.written }
      : ReaderId).t = tid := h
  rw [read_eq_of_tag h2]
  have hnw : numWritten s
      { r with read_index := s.write_index, written := s.written } = 0 := by
    simp [numWritten]
  simp [okValues, hnw, toList_stop]

/-- Claim C7: `new_reader_id` snapshots the buffer's current write cursor
and written counter, so the new handle's first read, performed before any
further write, succeeds and returns the empty sequence — it never
observes contents that existed before its creation. -/
theorem C7_no_retroactive_visibility {T : Type} (tid : Nat)
    (s : RingBufferStorage T) :
    (new_reader_id tid s).1.read_index = s.write_index ∧
    (new_reader_id tid s).1.written = s.written ∧
    okValues ((read tid s (new_reader_id tid s).1).1) = some [] := by
  refine ⟨rfl, rfl, ?_⟩
  have h : (new_reader_id tid s).1.t = tid := rfl
  rw [read_eq_of_tag h]
  simp [okValues, numWritten, new_reader_id, ReaderId.new, toList_stop]

/-- Claim C9: for every buffer reachable from `new` with positive
capacity through `write`, `write_single`, `new_reader_id` and `read`
(`read` leaves the storage untouched), the backing storage length is at
most the capacity and the write cursor is strictly below the capacity;
and once the storage is full, every single write overwrites the slot at
the write cursor in place, leaving the length at the capacity forever. -/
theorem C9_structural_invariant {T : Type} (s : RingBufferStorage T)
    (h : Reachable s) :
    s.data.length ≤ s.max_size ∧ s.write_index < s.max_size ∧
    (s.data.length = s.max_size →
      ∀ d, (write_single s d).data = s.data.set s.write_index d ∧
        (write_single s d).data.length = s.max_size) := by
  have hInv := h.inv
  refine ⟨hInv.len_le, hInv.wi_lt, ?_⟩
  intro hfull d
  have hne : ¬s.write_index = s.data.length := by
    have := hInv.wi_lt; omega
  constructor
  · show (if s.write_index = s.data.length then s.data ++ [d]
      else s.data.set s.write_index d) = _
    rw [if_neg hne]
  · show (if s.write_index = s.data.length then s.data ++ [d]
      else s.data.set s.write_index d).length = _
    rw [if_neg hne, List.length_set]
    exact hfull

/-- Claim C10 (implicit frame effect): a successful non-empty `write`
drains the caller's vector, leaving it empty, while an empty-input call
and a `TooLargeWrite` failure leave the caller's vector exactly as it
was. -/
theorem C10_write_consumes_input {T : Type} (s : RingBufferStorage T)
    (data : List T) :
    (data = [] → (write s data).2.2 = data) ∧
    (data ≠ [] → data.length ≤ s.max_size → (write s data).2.2 = []) ∧
    (s.max_size < data.length → (write s data).2.2 = data) := by
  refine ⟨?_, ?_, ?_⟩
  · intro h
    simp [write, h]
  · intro h1 h2
    have h0 : ¬data.length = 0 := by simpa [List.length_eq_zero] using h1
    simp [write, h0, Nat.not_lt.mpr h2]
  · intro h
    have h0 : ¬data.length = 0 := by omega
    simp [write, h0, h]

/-- Claim C3: for every reachable buffer, every handle synchronized with
it (as minted by `new_reader_id` or resynchronized by a previous `read`)
and every subsequent sequence of API steps, when the `num_written` delta
of read step 2 exceeds the capacity, `read` fails with `LostData` whose
count is `delta - capacity` and whose salvage is exactly the buffer's
entire current contents in chronological order: the slice from the write
cursor to the end of the backing storage followed by the slice from its
start up to the write cursor. -/
theorem C3_lost_data {T : Type} (tid : Nat) {s0 : RingBufferStorage T}
    (h0 : Reachable s0) (ops : List (Step T)) (r : ReaderId)
    (hrt : r.t = tid) (hri : r.read_index = s0.write_index)
    (hrw : r.written = s0.written) {s1 : RingBufferStorage T}
    (hs1 : s1 = run s0 ops) (hlost : s1.max_size < numWritten s1 r) :
    lostSalvage ((read tid s1 r).1)
      = some (s1.data.drop s1.write_index ++ s1.data.take s1.write_index,
          numWritten s1 r - s1.max_size) ∧
    s1.data.length = s1.max_size := by
  subst hs1
  have hInv0 := h0.inv
  have hInv1 := (h0.run_pres ops).inv
  have hobs := run_obsEq s0 ops
  have hnw_eq := numWritten_obsEq hobs r
  obtain ⟨hd, hw, hm, hwr2, hr2⟩ := hobs
  have hms : (run s0 ops).max_size = s0.max_size := by rw [hm, writeList_max]
  -- strictly more writes than the capacity happened since the handle synced
  have hn_gt : s0.max_size < (writesOf ops).length := by
    by_contra hle
    rw [Nat.not_lt] at hle
    have hval := numWritten_writeList hInv0 hrw (writesOf ops) hle
    rw [hms, hnw_eq, hval] at hlost
    split at hlost <;> omega
  -- hence the backing vector is full
  have hlenW : (writeList s0 (writesOf ops)).data.length = s0.max_size := by
    rw [writeList_length hInv0]
    omega
  have hlen1 : (run s0 ops).data.length = (run s0 ops).max_size := by
    rw [hd, hms]
    exact hlenW
  refine ⟨?_, hlen1⟩
  rw [read_eq_of_tag hrt, if_pos hlost]
  simp only [lostSalvage]
  rw [toList_full _ _ (by rw [hlen1]; exact hInv1.wi_lt)]

/-- Claim C8: for every reachable buffer, synchronized handle and
subsequent steps such that the handle's `read_index` equals the buffer's
`write_index` at read time, the successful read result is empty when the
`num_written` delta is `0`, and is the entire buffer contents (exactly
`capacity` elements, chronologically ordered from the write cursor) when
the delta equals the capacity — the two cases are distinguished by the
delta, not by cursor equality. -/
theorem C8_cursor_equality_disambiguation {T : Type} (tid : Nat)
    {s0 : RingBufferStorage T} (h0 : Reachable s0) (ops : List (Step T))
    (r : ReaderId) (hrt : r.t = tid) (hri : r.read_index = s0.write_index)
    (hrw : r.written = s0.written) {s1 : RingBufferStorage T}
    (hs1 : s1 = run s0 ops) (hcur : r.read_index = s1.write_index) :
    (numWritten s1 r = 0 → okValues ((read tid s1 r).1) = some []) ∧
    (numWritten s1 r = s1.max_size →
      okValues ((read tid s1 r).1)
        = some (s1.data.drop s1.write_index ++ s1.data.take s1.write_index) ∧
      (s1.data.drop s1.write_index ++ s1.data.take s1.write_index).length
        = s1.max_size) := by
  subst hs1
  have hInv0 := h0.inv
  have hInv1 := (h0.run_pres ops).inv
  have hobs := run_obsEq s0 ops
  have hnw_eq := numWritten_obsEq hobs r
  obtain ⟨hd, hw, hm, hwr2, hr2⟩ := hobs
  have hms : (run s0 ops).max_size = s0.max_size := by rw [hm, writeList_max]
  constructor
  · intro hnw0
    rw [read_eq_of_tag hrt, if_neg (by omega)]
    simp only [okValues, hnw0, hcur]
    simp [toList_stop]
  · intro hnwc
    -- at least capacity-many writes happened since the handle synced
    have hn_ge : s0.max_size ≤ (writesOf ops).length := by
      by_contra hlt
      rw [Nat.not_le] at hlt
      have hval := numWritten_writeList hInv0 hrw (writesOf ops) (by omega)
      rw [hnw_eq, hval, hms] at hnwc
      split at hnwc <;> omega
    have hlen1 : (run s0 ops).data.length = (run s0 ops).max_size := by
      rw [hd, hms, writeList_length hInv0]
      omega
    have hwi_lt : (run s0 ops).write_index < (run s0 ops).data.length := by
      rw [hlen1]
      exact hInv1.wi_lt
    have hc0 : 0 < (run s0 ops).max_size := hInv1.size_pos
    have hbeq : (numWritten (run s0 ops) r == 0) = false := by
      rw [hnwc]
      simp
      omega
    rw [read_eq_of_tag hrt, if_neg (by omega)]
    simp only [okValues, hbeq, hcur]
    rw [toList_full _ _ hwi_lt]
    refine ⟨rfl, ?_⟩
    rw [List.length_append, List.length_drop, List.length_take]
    omega

/-- Claim C1 (code bug, failing input): capacity `1`; mint a reader after
exactly `1000` writes, when the `written` counter sits at its modulus
`M = capacity * 1000`; one further write (well within capacity) wraps the
counter to `0`, and the reader's `read` then SUCCEEDS with the EMPTY
sequence instead of the one value written since the handle's creation:
the claimed round-trip (`some [42]`) fails because the counter wraps with
modulus `M + 1` (reset only when `written > M`) while read step 2
reconstructs the delta with modulus `M`, losing one write per wrap. -/
theorem C1_counter_wrap_drops_write :
    okValues ((read 0
        (writeList (writeList (RingBufferStorage.new Nat 1)
          (List.replicate 1000 7)) [42])
        ((new_reader_id 0 (writeList (RingBufferStorage.new Nat 1)
          (List.replicate 1000 7))).1)).1)
      = some [] ∧ ([] : List Nat) ≠ [42] := by
  have hInvB : Inv (RingBufferStorage.new Nat 1) := Inv.new_pos 1 (by omega)
  set s0 := writeList (RingBufferStorage.new Nat 1) (List.replicate 1000 7)
    with hs0
  have hInv0 : Inv s0 := hInvB.writeList_pres _
  have hmax : s0.max_size = 1 := by rw [hs0, writeList_max]; rfl
  have hreset : s0.reset_written = 1000 := by rw [hs0, writeList_reset]; rfl
  have hwr : s0.written = 1000 := by
    rw [hs0, writeList_written hInvB, List.length_replicate]
    norm_num [RingBufferStorage.new]
  have hwi : s0.write_index = 0 := by
    rw [hs0, writeList_write_index hInvB, List.length_replicate]
    norm_num [RingBufferStorage.new]
  have hrt : ((new_reader_id 0 s0).1).t = 0 := by
    simp [new_reader_id, ReaderId.new]
  have hrw : ((new_reader_id 0 s0).1).written = s0.written := by
    simp [new_reader_id, ReaderId.new]
  have hnw : numWritten (writeList s0 [42]) (new_reader_id 0 s0).1 = 0 := by
    rw [numWritten_writeList hInv0 hrw [42] (by simp [hmax])]
    rw [hwr, hreset]
    norm_num
  refine ⟨?_, by decide⟩
  rw [read_eq_of_tag hrt, if_neg (by rw [hnw]; exact Nat.not_lt_zero _)]
  have hwi1 : (writeList s0 [42]).write_index = 0 := by
    rw [writeList_write_index hInv0]
    simp [hwi, hmax]
  have hridx : (new_reader_id 0 s0).1.read_index = 0 := by
    simp [new_reader_id, ReaderId.new, hwi]
  simp only [okValues, hnw, hwi1, hridx]
  simp [toList_stop]

/-- Claim C2 (code bug, failing input): capacity `2`, so `M = 2000`; a
reader minted after exactly `2000` writes snapshots `seen_written =
2000 = M`; one further write wraps the counter to `0`, and the
`num_written` delta of read step 2 computes `0 + (M - 2000) = 0` even
though exactly one write (at most capacity) happened since the snapshot:
the wraparound-safe subtraction is off by one on the wrap path, because
the counter's true modulus is `M + 1`. -/
theorem C2_delta_misses_wrapped_write :
    numWritten
        (writeList (writeList (RingBufferStorage.new Nat 2)
          (List.replicate 2000 5)) [9])
        ((new_reader_id 0 (writeList (RingBufferStorage.new Nat 2)
          (List.replicate 2000 5))).1) = 0 ∧
    (0 : Nat) ≠ [(9 : Nat)].length := by
  have hInvB : Inv (RingBufferStorage.new Nat 2) := Inv.new_pos 2 (by omega)
  set s0 := writeList (RingBufferStorage.new Nat 2) (List.replicate 2000 5)
    with hs0
  have hInv0 : Inv s0 := hInvB.writeList_pres _
  have hmax : s0.max_size = 2 := by rw [hs0, writeList_max]; rfl
  have hreset : s0.reset_written = 2000 := by rw [hs0, writeList_reset]; rfl
  have hwr : s0.written = 2000 := by
    rw [hs0, writeList_written hInvB, List.length_replicate]
    norm_num [RingBufferStorage.new]
  have hrw : ((new_reader_id 0 s0).1).written = s0.written := by
    simp [new_reader_id, ReaderId.new]
  refine ⟨?_, by decide⟩
  rw [numWritten_writeList hInv0 hrw [9] (by simp [hmax])]
  rw [hwr, hreset]
  norm_num

/-- Claim C4: writing an empty batch succeeds and leaves the buffer and
the vector untouched; writing a batch longer than the capacity fails with
`TooLargeWrite` and leaves the buffer completely unmodified; otherwise
the call succeeds and every item of the batch is written in order through
the single-item write, each landing `j` slots past the write cursor. -/
theorem C4_write_batch {T : Type} (s : RingBufferStorage T) (h : Reachable s)
    (data : List T) :
    (data = [] → write s data = (.ok (), s, data)) ∧
    (s.max_size < data.length → write s data = (.error .tooLargeWrite, s, data)) ∧
    (data ≠ [] → data.length ≤ s.max_size →
      write s data = (.ok (), writeList s data, []) ∧
      ∀ j, j < data.length →
        (writeList s data).data[(s.write_index + j) % s.max_size]? = data[j]?) := by
  refine ⟨?_, ?_, ?_⟩
  · intro h0
    simp [write, h0]
  · intro h1
    have h0 : ¬data.length = 0 := by omega
    simp [write, h0, h1]
  · intro h1 h2
    have h0 : ¬data.length = 0 := by simpa [List.length_eq_zero] using h1
    refine ⟨by simp [write, h0, Nat.not_lt.mpr h2, writeList], ?_⟩
    exact writeList_get_content h.inv data h2

theorem C3_lost_data_witness :
    lostSalvage ((read 0
        (run (RingBufferStorage.new Nat 3)
          [Step.write 0, Step.write 1, Step.write 0, Step.write 1])
        (ReaderId.new 0 1 0 0)).1)
      = some ([1, 0, 1], 1) ∧
    (run (RingBufferStorage.new Nat 3)
        [Step.write 0, Step.write 1, Step.write 0, Step.write 1]).data.length = 3 := by
  have h := C3_lost_data 0 (Reachable.new_ 3 (by decide))
    [Step.write 0, Step.write 1, Step.write 0, Step.write 1]
    (ReaderId.new 0 1 0 0) rfl rfl rfl rfl (by decide)
  exact ⟨h.1.trans (by decide), h.2.trans (by decide)⟩

theorem C8_cursor_equality_witness :
    okValues ((read 0
        (run (RingBufferStorage.new Nat 2) [Step.write 10, Step.write 20])
        (ReaderId.new 0 1 0 0)).1) = some [10, 20] ∧
    okValues ((read 0
        (run (RingBufferStorage.new Nat 2) ([] : List (Step Nat)))
        (ReaderId.new 0 1 0 0)).1) = some [] := by
  constructor
  · have h := (C8_cursor_equality_disambiguation 0 (Reachable.new_ 2 (by decide))
      [Step.write 10, Step.write 20] (ReaderId.new 0 1 0 0)
      rfl rfl rfl rfl (by decide)).2 (by decide)
    exact h.1.trans (by decide)
  · exact (C8_cursor_equality_disambiguation 0 (Reachable.new_ 2 (by decide))
      [] (ReaderId.new 0 1 0 0) rfl rfl rfl rfl (by decide)).1 (by decide)

theorem C4_write_batch_witness :
    write (RingBufferStorage.new Nat 2) [7]
      = (.ok (), writeList (RingBufferStorage.new Nat 2) [7], []) ∧
    write (RingBufferStorage.new Nat 1) [7, 8]
      = (.error .tooLargeWrite, RingBufferStorage.new Nat 1, [7, 8]) ∧
    write (RingBufferStorage.new Nat 2) ([] : List Nat)
      = (.ok (), RingBufferStorage.new Nat 2, []) := by
  refine ⟨?_, ?_, ?_⟩
  · exact ((C4_write_batch (RingBufferStorage.new Nat 2)
      (Reachable.new_ 2 (by decide)) [7]).2.2 (by decide) (by decide)).1
  · exact (C4_write_batch (RingBufferStorage.new Nat 1)
      (Reachable.new_ 1 (by decide)) [7, 8]).2.1 (by decide)
  · exact (C4_write_batch (RingBufferStorage.new Nat 2)
      (Reachable.new_ 2 (by decide)) []).1 rfl

theorem C5_invalid_reader_witness :
    (read 1 (RingBufferStorage.new Nat 10) (ReaderId.new 0 4 0 0)).1
      = .error .invalidReader ∧
    (read 1 (RingBufferStorage.new Nat 10) (ReaderId.new 0 4 0 0)).2
      = ReaderId.new 0 4 0 0 := by
  have h := C5_invalid_reader 1 (RingBufferStorage.new Nat 10) (ReaderId.new 0 4 0 0)
  exact ⟨h.1.mpr (by decide), h.2 (by decide)⟩

theorem C6_resync_witness :
    (read 0 (write_single (RingBufferStorage.new Nat 10) 5)
      (ReaderId.new 0 1 0 0)).2.read_index = 1 ∧
    (read 0 (write_single (RingBufferStorage.new Nat 10) 5)
      (ReaderId.new 0 1 0 0)).2.written = 1 ∧
    okValues ((read 0 (write_single (RingBufferStorage.new Nat 10) 5)
        ((read 0 (write_single (RingBufferStorage.new Nat 10) 5)
          (ReaderId.new 0 1 0 0)).2)).1) = some [] := by
  have h := C6_resync 0 (write_single (RingBufferStorage.new Nat 10) 5)
    (ReaderId.new 0 1 0 0) rfl
  exact ⟨h.1.1.trans (by decide), h.1.2.trans (by decide), h.2⟩

theorem C9_structural_invariant_witness :
    (write_single (write_single (RingBufferStorage.new Nat 1) 5) 6).data
      = (write_single (RingBufferStorage.new Nat 1) 5).data.set
          (write_single (RingBufferStorage.new Nat 1) 5).write_index 6 ∧
    (write_single (write_single (RingBufferStorage.new Nat 1) 5) 6).data.length = 1 := by
  have h := (C9_structural_invariant (write_single (RingBufferStorage.new Nat 1) 5)
    (Reachable.wsingle (Reachable.new_ 1 (by decide)))).2.2 (by decide) 6
  exact ⟨h.1, h.2.trans (by decide)⟩

theorem C10_write_consumes_witness :
    (write (RingBufferStorage.new Nat 10) [1]).2.2 = [] ∧
    (write (RingBufferStorage.new Nat 1) [1, 2]).2.2 = [1, 2] ∧
    (write (RingBufferStorage.new Nat 10) ([] : List Nat)).2.2 = [] := by
  refine ⟨?_, ?_, ?_⟩
  · exact (C10_write_consumes_input (RingBufferStorage.new Nat 10) [1]).2.1
      (by decide) (by decide)
  · exact (C10_write_consumes_input (RingBufferStorage.new Nat 1) [1, 2]).2.2
      (by decide)
  · exact (C10_write_consumes_input (RingBufferStorage.new Nat 10) []).1 rfl

end Shrev
